import Mathlib

/-!
Verification of the `monkeyvec` growable contiguous-buffer container
(`src/monkeyvec/src/lib.rs`).

The Rust code is a hand-rolled `Vec<T>` over raw `realloc`/`free`.  We embed
it shallowly: a buffer slot is an `Option α`, where `none` models an
allocated-but-uninitialized slot (fresh memory returned by `realloc` has
unspecified contents), and `some x` a slot holding the value `x`.  The value
`z : α` threaded through the operations stands for the element whose byte
representation is all zeroes, i.e. what `std::ptr::write_bytes(_, 0, _)`
produces.

The allocator is modelled by an oracle `ok : Nat → Bool` saying whether the
n-th `realloc` call succeeds, together with a call counter and a log of the
successful growth events (allocated slot count before and after each event).
The struct fields `cap` and `len` are carried verbatim; `buf` is the actual
allocated region.  Normally `buf.length = cap`, but (as the proofs show) a
failed `reserve` can desynchronize the two.
-/

namespace MonkeyVec

/-- The container struct of `lib.rs`: `ptr`/allocation is `buf` (one entry
per allocated slot), and the `cap` and `len` fields are carried verbatim. -/
structure Vec (α : Type) where
  buf : List (Option α)
  cap : Nat
  len : Nat
deriving DecidableEq

/-- Allocator state: `ok n` says whether the n-th `realloc` call succeeds,
`tick` counts `realloc` calls, and `log` records each successful growth
event as the pair (allocated slots before, allocated slots after). -/
structure AState where
  ok : Nat → Bool
  tick : Nat
  log : List (Nat × Nat)

variable {α : Type}

/-- `Vec::new()`: null pointer, capacity 0, length 0. -/
def Vec.new : Vec α := ⟨[], 0, 0⟩

/-- Read slot `i` of a buffer; out-of-range reads yield `none`
(in the real code such a read would be out of bounds). -/
def rd (l : List (Option α)) (i : Nat) : Option α := l.getD i none

/-- Tabulate a buffer of `n` slots. -/
def tab (n : Nat) (f : Nat → Option α) : List (Option α) := (List.range n).map f

/-- The live view of a container: slots `[0, len)`, as read from the
allocation (this is what `Deref` exposes). -/
def view (v : Vec α) : List (Option α) := tab v.len (rd v.buf)

/-- `Vec::resize`: `new_cap = cap + 1`; `realloc` the region to `new_cap`
slots (preserving existing contents, new slots unspecified); on success,
`write_bytes(ptr.offset(len), 0, new_cap - cap)` — note `new_cap - cap = 1`,
so exactly one slot, the one at offset `len`, is zero-filled — then the
`ptr` and `cap` fields are updated.  On failure (`realloc` returned null)
nothing in the container changes. -/
def resize (z : α) (v : Vec α) (s : AState) : Except Unit Unit × Vec α × AState :=
  let newCap := v.cap + 1
  if s.ok s.tick then
    let raw := v.buf.take newCap ++ List.replicate (newCap - v.buf.length) (none : Option α)
    (Except.ok (), ⟨raw.set v.len (some z), newCap, v.len⟩,
      ⟨s.ok, s.tick + 1, s.log ++ [(v.buf.length, newCap)]⟩)
  else
    (Except.error (), v, ⟨s.ok, s.tick + 1, s.log⟩)

/-- The body of `Vec::push`, generalized to write a raw slot value (used
directly by `append`, which moves possibly-uninitialized slots): if
`len == cap`, first `resize`; then `ptr::write` at offset `len` and
increment `len`.  On `resize` failure the error propagates via `?` and the
container is unchanged. -/
def pushRaw (z : α) (val : Option α) (v : Vec α) (s : AState) :
    Except Unit Unit × Vec α × AState :=
  if v.len = v.cap then
    match resize z v s with
    | (Except.ok _, v1, s1) =>
        (Except.ok (), ⟨v1.buf.set v1.len val, v1.cap, v1.len + 1⟩, s1)
    | (Except.error e, v1, s1) => (Except.error e, v1, s1)
  else
    (Except.ok (), ⟨v.buf.set v.len val, v.cap, v.len + 1⟩, s)

/-- `Vec::push(value)`. -/
def push (z val : α) (v : Vec α) (s : AState) : Except Unit Unit × Vec α × AState :=
  pushRaw z (some val) v s

/-- `Vec::pop`: `None` when empty, else decrement `len` and read the slot
at the new `len`.  The yielded value is the raw slot content. -/
def pop (v : Vec α) : Option (Option α) × Vec α :=
  if v.len = 0 then (none, v)
  else (some (rd v.buf (v.len - 1)), ⟨v.buf, v.cap, v.len - 1⟩)

/-- `Vec::reserve(additional)`: sets `self.cap = max(1, cap + additional) - 1`
and then calls `resize` once.  Note the field assignment happens before the
(single) reallocation. -/
def reserve (z : α) (additional : Nat) (v : Vec α) (s : AState) :
    Except Unit Unit × Vec α × AState :=
  resize z ⟨v.buf, max 1 (v.cap + additional) - 1, v.len⟩ s

/-- `Vec::with_len(size)`: builds `{ptr: null, cap: max(1, size) - 1, len: 0}`,
calls `resize` once, then sets `len = size`.  On failure the error is
returned and no container escapes. -/
def with_len (z : α) (size : Nat) (s : AState) : Except Unit (Vec α) × AState :=
  match resize z ⟨[], max 1 size - 1, 0⟩ s with
  | (Except.ok _, v1, s1) => (Except.ok ⟨v1.buf, v1.cap, size⟩, s1)
  | (Except.error e, _, s1) => (Except.error e, s1)

/-- Overwrite slots `[i, i + data.length)` of a buffer with the elements of
`data` (models `copy_from_slice` into a subrange). -/
def copyRange (l : List (Option α)) (i : Nat) (data : List α) : List (Option α) :=
  tab l.length (fun j => if i ≤ j ∧ j < i + data.length then data[j - i]? else rd l j)

/-- `Vec::from_slice(other)`: `with_len(other.len())?`, then
`copy_from_slice(other)` over the live view. -/
def from_slice (z : α) (data : List α) (s : AState) : Except Unit (Vec α) × AState :=
  match with_len z data.length s with
  | (Except.ok v, s1) => (Except.ok ⟨copyRange v.buf 0 data, v.cap, v.len⟩, s1)
  | (Except.error e, s1) => (Except.error e, s1)

/-- `Vec::extend_from_slice(other)`: `reserve(other.len())?`, then bump `len`
and copy the bytes into the newly covered slots. -/
def extend_from_slice (z : α) (data : List α) (v : Vec α) (s : AState) :
    Except Unit Unit × Vec α × AState :=
  match reserve z data.length v s with
  | (Except.ok _, v1, s1) =>
      (Except.ok (), ⟨copyRange v1.buf v1.len data, v1.cap, v1.len + data.length⟩, s1)
  | (Except.error e, v1, s1) => (Except.error e, v1, s1)

/-- Push a list of raw slot values one at a time, stopping at the first
failure (models a `for`-loop of `push(..)?`). -/
def pushAll (z : α) (vals : List (Option α)) (v : Vec α) (s : AState) :
    Except Unit Unit × Vec α × AState :=
  match vals with
  | [] => (Except.ok (), v, s)
  | x :: xs =>
    match pushRaw z x v s with
    | (Except.ok _, v1, s1) => pushAll z xs v1 s1
    | (Except.error e, v1, s1) => (Except.error e, v1, s1)

/-- Result of `Vec::append`: the error flag, the updated `self`, the updated
`other`, and the allocator state. -/
structure AppendResult (α : Type) where
  res : Except Unit Unit
  self : Vec α
  other : Vec α
  st : AState

/-- `Vec::append(other)`: `mem::swap` a fresh empty vector into `other`
(so `other` is empty from this point on, whatever happens next), then
`reserve(mine.len())?` and push each element moved out of `mine` in order. -/
def append (z : α) (v other : Vec α) (s : AState) : AppendResult α :=
  let mine := other
  match reserve z mine.len v s with
  | (Except.ok _, v1, s1) =>
      match pushAll z (view mine) v1 s1 with
      | (r, v2, s2) => ⟨r, v2, Vec.new, s2⟩
  | (Except.error e, v1, s1) => ⟨Except.error e, v1, Vec.new, s1⟩

/-- `Clone for Vec<T>`: start from `Vec::new()` and push a clone of each
live element; a push failure hits `.expect("OOM")`, i.e. a panic/abort,
modelled as `none` — clone has no error-value channel at all. -/
def clone (z : α) (v : Vec α) (s : AState) : Option (Vec α) × AState :=
  match pushAll z (view v) Vec.new s with
  | (Except.ok _, w, s1) => (some w, s1)
  | (Except.error _, _, s1) => (none, s1)

/-- Element comparison lifted to slots.  On two initialized slots it is the
element type's comparison; comparisons touching an uninitialized slot are
undefined behaviour in the real code and the values chosen here are a model
artifact (the equality theorems are stated for initialized containers). -/
def obeq (beq : α → α → Bool) : Option α → Option α → Bool
  | some a, some b => beq a b
  | none, none => true
  | _, _ => false

/-- Slice equality as Rust's `[T]::eq`: equal lengths and element-wise
comparison in index order. -/
def sliceBeq (beq : α → α → Bool) : List (Option α) → List (Option α) → Bool
  | [], [] => true
  | x :: xs, y :: ys => obeq beq x y && sliceBeq beq xs ys
  | _, _ => false

/-- `PartialEq for Vec<T>`: compare the two live views as slices. -/
def vecEq (beq : α → α → Bool) (v w : Vec α) : Bool :=
  sliceBeq beq (view v) (view w)

/-- `PartialEq<&[T]> for Vec<T>`: compare the live view against a native
slice (whose elements are all present, hence `map some`). -/
def vecEqSlice (beq : α → α → Bool) (v : Vec α) (sl : List α) : Bool :=
  sliceBeq beq (view v) (sl.map some)

/-- Every live slot is initialized (no uninitialized reads). -/
def Inited (v : Vec α) : Prop := ∀ i, i < v.len → (rd v.buf i).isSome

/-- Well-formed container: the allocation matches the `cap` field and the
length is within capacity. -/
def WF (v : Vec α) : Prop := v.buf.length = v.cap ∧ v.len ≤ v.cap

/-- A container is compact when the length fills the matching allocation
(the state every pure-push history produces). -/
def Compact (v : Vec α) : Prop := v.len = v.cap ∧ v.buf.length = v.cap

/-- Allocator that always succeeds, fresh counter and log. -/
def sAll : AState := ⟨fun _ => true, 0, []⟩

/-- Allocator that always fails, fresh counter and log. -/
def sNone : AState := ⟨fun _ => false, 0, []⟩

/-- The buffer produced by a successful `resize`: the old region reallocated
to `cap + 1` slots (contents preserved, fresh slots unspecified) with the
single slot at offset `len` zero-filled. -/
def grownBuf (z : α) (v : Vec α) : List (Option α) :=
  (v.buf.take (v.cap + 1) ++
    List.replicate (v.cap + 1 - v.buf.length) (none : Option α)).set v.len (some z)

theorem length_tab (n : Nat) (f : Nat → Option α) : (tab n f).length = n := by
  simp [tab]

theorem rd_tab (n : Nat) (f : Nat → Option α) (i : Nat) :
    rd (tab n f) i = if i < n then f i else none := by
  unfold rd tab
  rcases Nat.lt_or_ge i n with h | h
  · rw [List.getD_eq_getElem?_getD, List.getElem?_map, List.getElem?_range h, if_pos h]
    rfl
  · have hn : (List.range n)[i]? = none := by
      rw [List.getElem?_eq_none_iff]
      simpa using h
    rw [List.getD_eq_getElem?_getD, List.getElem?_map, hn, if_neg (Nat.not_lt.mpr h)]
    rfl

theorem rd_set (l : List (Option α)) (i j : Nat) (x : Option α) :
    rd (l.set i x) j = if j = i ∧ i < l.length then x else rd l j := by
  unfold rd
  rw [List.getD_eq_getElem?_getD, List.getD_eq_getElem?_getD, List.getElem?_set]
  by_cases h : i = j
  · subst h
    by_cases h2 : i < l.length
    · simp [h2]
    · simp [h2, List.getElem?_eq_none_iff.mpr (Nat.le_of_not_lt h2)]
  · have h' : ¬(j = i ∧ i < l.length) := fun hh => h hh.1.symm
    simp [h, h']

theorem length_takeExt (l : List (Option α)) (m : Nat) :
    (l.take m ++ List.replicate (m - l.length) (none : Option α)).length = m := by
  simp only [List.length_append, List.length_take, List.length_replicate]
  omega

theorem rd_takeExt (l : List (Option α)) (m j : Nat) :
    rd (l.take m ++ List.replicate (m - l.length) (none : Option α)) j =
      if j < m then rd l j else none := by
  unfold rd
  rw [List.getD_eq_getElem?_getD, List.getD_eq_getElem?_getD, List.getElem?_append,
    List.length_take, List.getElem?_take, List.getElem?_replicate]
  by_cases h : j < min m l.length
  · have hm : j < m := lt_of_lt_of_le h (min_le_left _ _)
    simp [h, hm]
  · rw [if_neg h]
    by_cases h2 : j < m
    · have hl : l.length ≤ j := by omega
      rw [if_pos h2, List.getElem?_eq_none_iff.mpr hl]
      by_cases h3 : j - min m l.length < m - l.length <;> simp [h3]
    · rw [if_neg h2]
      by_cases h3 : j - min m l.length < m - l.length <;> simp [h3]

theorem length_grownBuf (z : α) (v : Vec α) : (grownBuf z v).length = v.cap + 1 := by
  rw [grownBuf, List.length_set, length_takeExt]

theorem rd_grownBuf (z : α) (v : Vec α) (j : Nat) :
    rd (grownBuf z v) j =
      if j = v.len ∧ v.len < v.cap + 1 then some z
      else if j < v.cap + 1 then rd v.buf j else none := by
  rw [grownBuf, rd_set, length_takeExt, rd_takeExt]

theorem resize_ok (z : α) (v : Vec α) (s : AState) (h : s.ok s.tick = true) :
    resize z v s =
      (Except.ok (), ⟨grownBuf z v, v.cap + 1, v.len⟩,
        ⟨s.ok, s.tick + 1, s.log ++ [(v.buf.length, v.cap + 1)]⟩) := by
  simp [resize, grownBuf, h]

theorem resize_err (z : α) (v : Vec α) (s : AState) (h : s.ok s.tick = false) :
    resize z v s = (Except.error (), v, ⟨s.ok, s.tick + 1, s.log⟩) := by
  simp [resize, h]

theorem view_mk (buf : List (Option α)) (cap len : Nat) :
    view (⟨buf, cap, len⟩ : Vec α) = tab len (rd buf) := rfl

theorem tab_succ (n : Nat) (f : Nat → Option α) :
    tab (n + 1) f = tab n f ++ [f n] := by
  simp [tab, List.range_succ]

theorem tab_congr {n : Nat} {f g : Nat → Option α} (h : ∀ j, j < n → f j = g j) :
    tab n f = tab n g :=
  List.map_congr_left (fun a ha => h a (List.mem_range.mp ha))

theorem pushRaw_noGrow (z : α) (x : Option α) (v : Vec α) (s : AState)
    (h : v.len ≠ v.cap) :
    pushRaw z x v s = (Except.ok (), ⟨v.buf.set v.len x, v.cap, v.len + 1⟩, s) := by
  simp [pushRaw, h]

theorem pushRaw_full_ok (z : α) (x : Option α) (v : Vec α) (s : AState)
    (h : v.len = v.cap) (hk : s.ok s.tick = true) :
    pushRaw z x v s =
      (Except.ok (), ⟨(grownBuf z v).set v.len x, v.cap + 1, v.len + 1⟩,
        ⟨s.ok, s.tick + 1, s.log ++ [(v.buf.length, v.cap + 1)]⟩) := by
  simp [pushRaw, h, resize_ok z v s hk]

theorem pushRaw_full_err (z : α) (x : Option α) (v : Vec α) (s : AState)
    (h : v.len = v.cap) (hk : s.ok s.tick = false) :
    pushRaw z x v s = (Except.error (), v, ⟨s.ok, s.tick + 1, s.log⟩) := by
  simp [pushRaw, h, resize_err z v s hk]

/-- On a failed allocation, `push` leaves the container exactly as it was. -/
theorem pushRaw_err_unchanged (z : α) (x : Option α) (v : Vec α) (s : AState)
    (v' : Vec α) (s' : AState)
    (h : pushRaw z x v s = (Except.error (), v', s')) : v' = v := by
  by_cases hfull : v.len = v.cap
  · rcases Bool.eq_false_or_eq_true (s.ok s.tick) with hk | hk
    · rw [pushRaw_full_ok z x v s hfull hk] at h
      exact absurd (congrArg Prod.fst h) (by simp)
    · rw [pushRaw_full_err z x v s hfull hk] at h
      have := congrArg (fun p => p.2.1) h
      simpa using this.symm
  · rw [pushRaw_noGrow z x v s hfull] at h
    exact absurd (congrArg Prod.fst h) (by simp)

theorem view_grownSet (z : α) (x : Option α) (v : Vec α) (h : v.len ≤ v.cap) :
    view (⟨(grownBuf z v).set v.len x, v.cap + 1, v.len + 1⟩ : Vec α) = view v ++ [x] := by
  rw [view_mk, tab_succ]
  congr 1
  · apply tab_congr
    intro j hj
    show rd ((grownBuf z v).set v.len x) j = rd v.buf j
    rw [rd_set, if_neg (fun hh => absurd hh.1 (by omega)), rd_grownBuf,
      if_neg (fun hh => absurd hh.1 (by omega)), if_pos (by omega : j < v.cap + 1)]
  · rw [rd_set, if_pos ⟨rfl, by rw [length_grownBuf]; omega⟩]

theorem view_set_push (x : Option α) (v : Vec α) (h : v.len < v.buf.length) :
    view (⟨v.buf.set v.len x, v.cap, v.len + 1⟩ : Vec α) = view v ++ [x] := by
  rw [view_mk, tab_succ]
  congr 1
  · apply tab_congr
    intro j hj
    show rd (v.buf.set v.len x) j = rd v.buf j
    rw [rd_set, if_neg (fun hh => absurd hh.1 (by omega))]
  · rw [rd_set, if_pos ⟨rfl, h⟩]

theorem pushRaw_compact_ok (z : α) (x : Option α) (v : Vec α) (s : AState)
    (hc : Compact v) (hk : s.ok s.tick = true) :
    pushRaw z x v s =
      (Except.ok (), ⟨(grownBuf z v).set v.len x, v.cap + 1, v.len + 1⟩,
        ⟨s.ok, s.tick + 1, s.log ++ [(v.cap, v.cap + 1)]⟩) ∧
      Compact (⟨(grownBuf z v).set v.len x, v.cap + 1, v.len + 1⟩ : Vec α) ∧
      view (⟨(grownBuf z v).set v.len x, v.cap + 1, v.len + 1⟩ : Vec α) = view v ++ [x] := by
  obtain ⟨h1, h2⟩ := hc
  refine ⟨?_, ⟨?_, ?_⟩, view_grownSet z x v (le_of_eq h1)⟩
  · rw [pushRaw_full_ok z x v s h1 hk, h2]
  · show v.len + 1 = v.cap + 1
    omega
  · show ((grownBuf z v).set v.len x).length = v.cap + 1
    rw [List.length_set, length_grownBuf]

theorem logShift (c n : Nat) :
    (c, c + 1) :: (List.range n).map (fun i => (c + 1 + i, c + 1 + i + 1)) =
      (List.range (n + 1)).map (fun i => (c + i, c + i + 1)) := by
  rw [List.range_succ_eq_map, List.map_cons, List.map_map]
  congr 1
  refine List.map_congr_left (fun a _ => ?_)
  show (c + 1 + a, c + 1 + a + 1) = (c + Nat.succ a, c + Nat.succ a + 1)
  have h1 : c + 1 + a = c + Nat.succ a := by omega
  rw [h1]

/-- Pushing a list of values onto a compact container: on overall success
the capacity and length both grow by the number of values, the view gains
exactly those values, and the log gains one one-slot growth event per
value. -/
theorem pushAll_compact (z : α) (vals : List (Option α)) :
    ∀ (v : Vec α) (s : AState) (v' : Vec α) (s' : AState),
      Compact v → pushAll z vals v s = (Except.ok (), v', s') →
      Compact v' ∧ v'.cap = v.cap + vals.length ∧ v'.len = v.len + vals.length ∧
        view v' = view v ++ vals ∧
        s'.log = s.log ++
          (List.range vals.length).map (fun i => (v.cap + i, v.cap + i + 1)) := by
  induction vals with
  | nil =>
    intro v s v' s' hc heq
    simp only [pushAll] at heq
    have hv : v' = v := by
      have := congrArg (fun p => p.2.1) heq
      simpa using this.symm
    have hs : s' = s := by
      have := congrArg (fun p => p.2.2) heq
      simpa using this.symm
    subst hv; subst hs
    exact ⟨hc, by simp, by simp, by simp, by simp⟩
  | cons x xs ih =>
    intro v s v' s' hc heq
    rcases Bool.eq_false_or_eq_true (s.ok s.tick) with hk | hk
    · obtain ⟨hpush, hcw, hview⟩ := pushRaw_compact_ok z x v s hc hk
      simp only [pushAll] at heq
      rw [hpush] at heq
      obtain ⟨hc', hcap, hlen, hv, hlog⟩ := ih _ _ _ _ hcw heq
      have hcap' : v'.cap = (v.cap + 1) + xs.length := hcap
      have hlen' : v'.len = (v.len + 1) + xs.length := hlen
      refine ⟨hc', by simp only [List.length_cons]; omega,
        by simp only [List.length_cons]; omega, ?_, ?_⟩
      · rw [hv, hview, List.append_assoc, List.singleton_append]
      · have hlog' : s'.log = (s.log ++ [(v.cap, v.cap + 1)]) ++
            (List.range xs.length).map
              (fun i => ((v.cap + 1) + i, (v.cap + 1) + i + 1)) := hlog
        rw [hlog', List.append_assoc, List.singleton_append, logShift]
        simp only [List.length_cons]
    · simp only [pushAll] at heq
      rw [pushRaw_full_err z x v s hc.1 hk] at heq
      exact absurd (congrArg (fun p => p.1) heq) (by simp)

/-- Pushing values into spare capacity: when the allocation already holds
room for all of them, every push succeeds without touching the allocator,
and the view gains exactly the pushed values. -/
theorem pushAll_noGrow (z : α) (vals : List (Option α)) :
    ∀ (v : Vec α) (s : AState),
      v.buf.length = v.cap → v.len + vals.length ≤ v.cap →
      ∃ v', pushAll z vals v s = (Except.ok (), v', s) ∧
        v'.cap = v.cap ∧ v'.buf.length = v.cap ∧ v'.len = v.len + vals.length ∧
        view v' = view v ++ vals := by
  induction vals with
  | nil =>
    intro v s h1 h2
    exact ⟨v, by simp [pushAll], rfl, h1, by simp, by simp⟩
  | cons x xs ih =>
    intro v s h1 h2
    have hlc : xs.length + 1 = (x :: xs).length := rfl
    have hne : v.len ≠ v.cap := by omega
    have hlt : v.len < v.buf.length := by omega
    obtain ⟨v', hp, hcap, hbl, hlen, hv⟩ :=
      ih ⟨v.buf.set v.len x, v.cap, v.len + 1⟩ s (by simpa using h1)
        (by show v.len + 1 + xs.length ≤ v.cap; omega)
    have hlen2 : v'.len = (v.len + 1) + xs.length := hlen
    refine ⟨v', ?_, hcap, hbl,
      by show v'.len = v.len + (xs.length + 1); omega, ?_⟩
    · simp only [pushAll]
      rw [pushRaw_noGrow z x v s hne]
      exact hp
    · rw [hv, view_set_push x v hlt, List.append_assoc, List.singleton_append]

/-- A successful `reserve(additional)`: the capacity field becomes exactly
`max 1 (cap + additional)`, the allocation is resized to match in a single
growth event, the length is unchanged, and (when the length was within
capacity) the live contents are preserved. -/
theorem reserve_ok_char (z : α) (add : Nat) (v : Vec α) (s : AState)
    (v' : Vec α) (s' : AState)
    (h : reserve z add v s = (Except.ok (), v', s')) :
    v'.cap = max 1 (v.cap + add) ∧ v'.len = v.len ∧
      v'.buf.length = max 1 (v.cap + add) ∧
      s'.log = s.log ++ [(v.buf.length, max 1 (v.cap + add))] ∧
      (v.len ≤ v.cap → view v' = view v) := by
  rcases Bool.eq_false_or_eq_true (s.ok s.tick) with hk | hk
  · rw [reserve, resize_ok z _ s hk] at h
    have hM : max 1 (v.cap + add) - 1 + 1 = max 1 (v.cap + add) := by omega
    have hv' : v' = ⟨grownBuf z ⟨v.buf, max 1 (v.cap + add) - 1, v.len⟩,
        max 1 (v.cap + add), v.len⟩ := by
      have := congrArg (fun p => p.2.1) h
      simp only at this
      rw [← this, hM]
    have hs' : s'.log = s.log ++ [(v.buf.length, max 1 (v.cap + add))] := by
      have := congrArg (fun p => p.2.2.log) h
      simp only at this
      rw [← this, hM]
    subst hv'
    refine ⟨rfl, rfl, ?_, hs', ?_⟩
    · show (grownBuf z ⟨v.buf, max 1 (v.cap + add) - 1, v.len⟩).length = _
      rw [length_grownBuf]
      show (max 1 (v.cap + add) - 1) + 1 = max 1 (v.cap + add)
      omega
    · intro hwf
      show tab v.len (rd (grownBuf z ⟨v.buf, max 1 (v.cap + add) - 1, v.len⟩)) =
        tab v.len (rd v.buf)
      apply tab_congr
      intro j hj
      rw [rd_grownBuf,
        if_neg (fun hh => absurd (show j = v.len from hh.1) (by omega)),
        if_pos (show j < (max 1 (v.cap + add) - 1) + 1 by omega)]
  · rw [reserve, resize_err z _ s hk] at h
    exact absurd (congrArg (fun p => p.1) h) (by simp)

/-- A failed `reserve(additional)`: the error is returned, the length and
the allocation are untouched, no growth event happened — but the capacity
field has already been overwritten with `max 1 (cap + additional) - 1`. -/
theorem reserve_err_char (z : α) (add : Nat) (v : Vec α) (s : AState)
    (v' : Vec α) (s' : AState)
    (h : reserve z add v s = (Except.error (), v', s')) :
    v' = ⟨v.buf, max 1 (v.cap + add) - 1, v.len⟩ ∧ s'.log = s.log := by
  rcases Bool.eq_false_or_eq_true (s.ok s.tick) with hk | hk
  · rw [reserve, resize_ok z _ s hk] at h
    exact absurd (congrArg (fun p => p.1) h) (by simp)
  · rw [reserve, resize_err z _ s hk] at h
    constructor
    · have := congrArg (fun p => p.2.1) h
      simpa using this.symm
    · have := congrArg (fun p => p.2.2.log) h
      simpa using this.symm

/-- A successful `with_len(size)`: capacity field and allocation are both
`max 1 size`, the length field is `size`, slot 0 is zero-filled and every
other slot is unspecified. -/
theorem with_len_ok_char (z : α) (size : Nat) (s : AState)
    (w : Vec α) (s' : AState)
    (h : with_len z size s = (Except.ok w, s')) :
    w.cap = max 1 size ∧ w.len = size ∧ w.buf.length = max 1 size ∧
      s'.log = s.log ++ [(0, max 1 size)] ∧
      (∀ j, rd w.buf j = if j = 0 then some z else none) := by
  rcases Bool.eq_false_or_eq_true (s.ok s.tick) with hk | hk
  · rw [with_len, resize_ok z _ s hk] at h
    have hM : max 1 size - 1 + 1 = max 1 size := by omega
    have hw : w = ⟨grownBuf z ⟨[], max 1 size - 1, 0⟩, max 1 size, size⟩ := by
      have := congrArg (fun p => p.1) h
      simp only at this
      cases this
      rw [hM]
    have hs' : s'.log = s.log ++ [(0, max 1 size)] := by
      have := congrArg (fun p => p.2.log) h
      simp only at this
      rw [← this, hM]
      rfl
    subst hw
    refine ⟨rfl, rfl, ?_, hs', ?_⟩
    · show (grownBuf z ⟨[], max 1 size - 1, 0⟩).length = _
      rw [length_grownBuf]
      show (max 1 size - 1) + 1 = max 1 size
      omega
    · intro j
      rw [rd_grownBuf]
      by_cases hj : j = 0
      · subst hj
        rw [if_pos ⟨rfl, show (0 : Nat) < (max 1 size - 1) + 1 by omega⟩, if_pos rfl]
      · rw [if_neg (fun hh => hj (show j = 0 from hh.1)), if_neg hj]
        by_cases hj2 : j < (max 1 size - 1) + 1
        · rw [if_pos hj2]
          show rd ([] : List (Option α)) j = none
          simp [rd]
        · rw [if_neg hj2]
  · rw [with_len, resize_err z _ s hk] at h
    exact absurd (congrArg (fun p => p.1) h) (by simp)

theorem length_view (v : Vec α) : (view v).length = v.len := length_tab _ _

theorem rd_view (v : Vec α) (i : Nat) :
    rd (view v) i = if i < v.len then rd v.buf i else none := rd_tab _ _ _

theorem getElem_tab (n : Nat) (f : Nat → Option α) (i : Nat)
    (h : i < (tab n f).length) : (tab n f)[i] = f i := by
  simp [tab]

theorem rd_copyRange (l : List (Option α)) (i : Nat) (data : List α) (j : Nat) :
    rd (copyRange l i data) j =
      if j < l.length then
        (if i ≤ j ∧ j < i + data.length then data[j - i]? else rd l j)
      else none := by
  rw [copyRange, rd_tab]

theorem sliceBeq_iff (beq : α → α → Bool) :
    ∀ (xs ys : List (Option α)),
      sliceBeq beq xs ys = true ↔
        (xs.length = ys.length ∧
          ∀ i, i < xs.length → obeq beq (rd xs i) (rd ys i) = true)
  | [], [] => by simp [sliceBeq]
  | [], y :: ys => by simp [sliceBeq]
  | x :: xs, [] => by simp [sliceBeq]
  | x :: xs, y :: ys => by
    simp only [sliceBeq, Bool.and_eq_true, sliceBeq_iff beq xs ys, List.length_cons]
    constructor
    · rintro ⟨h1, h2, h3⟩
      refine ⟨by omega, ?_⟩
      intro i hi
      cases i with
      | zero => exact h1
      | succ n =>
        show obeq beq (rd xs n) (rd ys n) = true
        exact h3 n (by omega)
    · rintro ⟨h1, h2⟩
      exact ⟨h2 0 (by omega), by omega,
        fun i hi => h2 (i + 1) (by omega)⟩

theorem vecEq_iff (beq : α → α → Bool) (v w : Vec α) :
    vecEq beq v w = true ↔
      (v.len = w.len ∧ ∀ i, i < v.len → obeq beq (rd v.buf i) (rd w.buf i) = true) := by
  rw [vecEq, sliceBeq_iff]
  constructor
  · rintro ⟨h1, h2⟩
    rw [length_view, length_view] at h1
    refine ⟨h1, fun i hi => ?_⟩
    have := h2 i (by rw [length_view]; exact hi)
    rw [rd_view, rd_view, if_pos hi, if_pos (by omega)] at this
    exact this
  · rintro ⟨h1, h2⟩
    refine ⟨by rw [length_view, length_view, h1], fun i hi => ?_⟩
    rw [length_view] at hi
    rw [rd_view, rd_view, if_pos hi, if_pos (by omega)]
    exact h2 i hi

theorem rd_map_some (sl : List α) (i : Nat) : rd (sl.map some) i = sl[i]? := by
  unfold rd
  rw [List.getD_eq_getElem?_getD, List.getElem?_map]
  cases sl[i]? <;> rfl

/-- Characterization of the `PartialEq<&[T]>` and `PartialEq<std::vec::Vec<T>>`
impls (both compare `self.as_slice()` against the other side's slice, so one
model definition covers container-vs-slice and container-vs-native-sequence):
true iff the lengths agree and every corresponding element compares equal in
index order. -/
theorem vecEqSlice_iff (beq : α → α → Bool) (v : Vec α) (sl : List α) :
    vecEqSlice beq v sl = true ↔
      (v.len = sl.length ∧ ∀ i, i < v.len → obeq beq (rd v.buf i) sl[i]? = true) := by
  rw [vecEqSlice, sliceBeq_iff]
  constructor
  · rintro ⟨h1, h2⟩
    rw [length_view, List.length_map] at h1
    refine ⟨h1, fun i hi => ?_⟩
    have := h2 i (by rw [length_view]; exact hi)
    rw [rd_view, if_pos hi, rd_map_some] at this
    exact this
  · rintro ⟨h1, h2⟩
    refine ⟨by rw [length_view, List.length_map, h1], fun i hi => ?_⟩
    rw [length_view] at hi
    rw [rd_view, if_pos hi, rd_map_some]
    exact h2 i hi

theorem obeq_symm (beq : α → α → Bool) (hsym : ∀ a b, beq a b = beq b a)
    (x y : Option α) : obeq beq x y = obeq beq y x := by
  cases x <;> cases y <;> simp [obeq]
  exact hsym _ _

theorem vecEq_refl (beq : α → α → Bool) (v : Vec α)
    (hrefl : ∀ a, beq a a = true) (hin : Inited v) : vecEq beq v v = true :=
  (vecEq_iff beq v v).mpr ⟨rfl, fun i hi => by
    obtain ⟨a, ha⟩ := Option.isSome_iff_exists.mp (hin i hi)
    rw [ha]
    exact hrefl a⟩

theorem vecEq_symm (beq : α → α → Bool) (v w : Vec α)
    (hsym : ∀ a b, beq a b = beq b a) : vecEq beq v w = vecEq beq w v := by
  cases hvw : vecEq beq v w
  · cases hwv : vecEq beq w v
    · rfl
    · obtain ⟨hl, hi⟩ := (vecEq_iff beq w v).mp hwv
      have hvt : vecEq beq v w = true := (vecEq_iff beq v w).mpr
        ⟨hl.symm, fun i hii => by
          rw [obeq_symm beq hsym]
          exact hi i (by omega)⟩
      rw [hvw] at hvt
      exact absurd hvt (by simp)
  · cases hwv : vecEq beq w v
    · obtain ⟨hl, hi⟩ := (vecEq_iff beq v w).mp hvw
      have hwt : vecEq beq w v = true := (vecEq_iff beq w v).mpr
        ⟨hl.symm, fun i hii => by
          rw [obeq_symm beq hsym]
          exact hi i (by omega)⟩
      rw [hwv] at hwt
      exact absurd hwt (by simp)
    · rfl

theorem sliceBeq_false_of_len (beq : α → α → Bool) (xs ys : List (Option α))
    (hne : xs.length ≠ ys.length) : sliceBeq beq xs ys = false := by
  cases h : sliceBeq beq xs ys
  · rfl
  · exact absurd ((sliceBeq_iff beq xs ys).mp h).1 hne

/-- A failed `with_len(size)`: the error is returned (no container escapes,
by the shape of the result) and no growth event happened. -/
theorem with_len_err_char (z : α) (size : Nat) (s s' : AState)
    (h : with_len z size s = (Except.error (), s')) : s'.log = s.log := by
  rcases Bool.eq_false_or_eq_true (s.ok s.tick) with hk | hk
  · rw [with_len, resize_ok z _ s hk] at h
    exact absurd (congrArg (fun p => p.1) h) (by simp)
  · rw [with_len, resize_err z _ s hk] at h
    have := congrArg (fun p => p.2.log) h
    simpa using this.symm

theorem pop_succ (buf : List (Option α)) (cap len : Nat) :
    pop (⟨buf, cap, len + 1⟩ : Vec α) = (some (rd buf len), ⟨buf, cap, len⟩) := by
  rw [pop, if_neg (show ¬(len + 1 = 0) by omega)]
  show (some (rd buf (len + 1 - 1)), (⟨buf, cap, len + 1 - 1⟩ : Vec α)) = _
  rw [Nat.add_sub_cancel]

/-- C1 counterexample: `reserve(3)` on the empty container with a failing
allocator returns `AllocationFailure`, yet the capacity field now reads 2
instead of the prior 0 — the fields do not describe the state before the
call. -/
theorem C1_counterexample :
    (reserve (0 : Nat) 3 Vec.new sNone).1 = Except.error () ∧
    ¬ (reserve (0 : Nat) 3 Vec.new sNone).2.1.cap = (Vec.new (α := Nat)).cap := by
  exact ⟨rfl, by decide⟩

/-- C1 (amended): on allocation failure, `push` leaves the container exactly
as before and `with_len` returns the error with no container escaping and
no growth recorded; `reserve`, however, returns the error with length and
allocation unchanged but with the capacity field already overwritten to
`max 1 (cap + additional) - 1`, which no longer describes the prior state
(for `additional = 0` it can even drop below the length). -/
theorem C1_amended {α : Type} (z val : α) (add n : Nat) (v : Vec α) (s : AState) :
    (∀ v' s', push z val v s = (Except.error (), v', s') → v' = v) ∧
    (∀ v' s', reserve z add v s = (Except.error (), v', s') →
      v'.len = v.len ∧ v'.buf = v.buf ∧ v'.cap = max 1 (v.cap + add) - 1 ∧
        s'.log = s.log) ∧
    (∀ s', with_len z n s = (Except.error (), s') → s'.log = s.log) := by
  refine ⟨?_, ?_, ?_⟩
  · intro v' s' h
    exact pushRaw_err_unchanged z (some val) v s v' s' h
  · intro v' s' h
    obtain ⟨hv, hs⟩ := reserve_err_char z add v s v' s' h
    subst hv
    exact ⟨rfl, rfl, rfl, hs⟩
  · intro s' h
    exact with_len_err_char z n s s' h

/-- Witness for C1 (amended): concrete failing `reserve(3)` from empty. -/
theorem C1_amended_witness :
    (⟨[], 2, 0⟩ : Vec Nat).len = (Vec.new (α := Nat)).len ∧
    (⟨[], 2, 0⟩ : Vec Nat).buf = (Vec.new (α := Nat)).buf ∧
    (⟨[], 2, 0⟩ : Vec Nat).cap = max 1 ((Vec.new (α := Nat)).cap + 3) - 1 ∧
    (⟨fun _ => false, 1, []⟩ : AState).log = sNone.log :=
  (C1_amended 0 5 3 2 Vec.new sNone).2.1 ⟨[], 2, 0⟩ ⟨fun _ => false, 1, []⟩ rfl

/-- C2: starting from the empty container, `k` successful pushes leave
capacity at least `k`, reached through exactly `k` growth events, each of
which grew the allocation by exactly one slot. -/
theorem C2_growth (z : α) (vals : List α) (s : AState) (v' : Vec α) (s' : AState)
    (hlog : s.log = [])
    (h : pushAll z (vals.map some) Vec.new s = (Except.ok (), v', s')) :
    vals.length ≤ v'.cap ∧ s'.log.length = vals.length ∧
      ∀ p ∈ s'.log, p.2 = p.1 + 1 := by
  obtain ⟨-, hcap, -, -, hl⟩ :=
    pushAll_compact z (vals.map some) Vec.new s v' s' ⟨rfl, rfl⟩ h
  have hcap' : v'.cap = 0 + (vals.map some).length := hcap
  have hl2 : s'.log =
      (List.range (vals.map some).length).map (fun i => (0 + i, 0 + i + 1)) := by
    rw [hl, hlog]
    simp [Vec.new]
  refine ⟨by simp at hcap'; omega, by rw [hl2]; simp, ?_⟩
  intro p hp
  rw [hl2] at hp
  simp only [List.mem_map, List.mem_range] at hp
  obtain ⟨i, -, hpi⟩ := hp
  rw [← hpi]

/-- Witness for C2: two pushes from empty. -/
theorem C2_witness :
    [1, 2].length ≤ (⟨[some 1, some 2], 2, 2⟩ : Vec Nat).cap ∧
    (⟨fun _ => true, 2, [(0, 1), (1, 2)]⟩ : AState).log.length = [1, 2].length ∧
    ∀ p ∈ (⟨fun _ => true, 2, [(0, 1), (1, 2)]⟩ : AState).log, p.2 = p.1 + 1 :=
  C2_growth 0 [1, 2] sAll ⟨[some 1, some 2], 2, 2⟩
    ⟨fun _ => true, 2, [(0, 1), (1, 2)]⟩ rfl rfl

/-- C3: the code evaluated at the failing input.  `with_len(2)` (allocator
succeeding) produces the buffer `[some 0, none]`: only slot 0 was
zero-filled, slot 1 holds unspecified realloc contents, contradicting the
claim (and the code's own comment) that all `n` slots are initialized.
Also `with_len(0)` produces capacity 1, not 0. -/
theorem C3_with_len_eval :
    (with_len (0 : Nat) 2 sAll).1 = Except.ok ⟨[some 0, none], 2, 2⟩ ∧
    ¬ (∀ i, i < (⟨[some 0, none], 2, 2⟩ : Vec Nat).len →
        rd (⟨[some 0, none], 2, 2⟩ : Vec Nat).buf i = some 0) ∧
    (with_len (0 : Nat) 0 sAll).1 = Except.ok ⟨[some 0], 1, 0⟩ := by
  refine ⟨rfl, ?_, rfl⟩
  intro h
  have h1 := h 1 (by decide)
  simp [rd] at h1

/-- C4 counterexample: a successful `reserve(3)` from the empty container
performs a single growth event taking the allocation from 0 slots straight
to 3 — not three one-slot growth steps. -/
theorem C4_counterexample :
    (reserve (0 : Nat) 3 Vec.new sAll).1 = Except.ok () ∧
    (reserve (0 : Nat) 3 Vec.new sAll).2.2.log = [(0, 3)] ∧
    ¬ (∀ p ∈ (reserve (0 : Nat) 3 Vec.new sAll).2.2.log, p.2 = p.1 + 1) := by
  refine ⟨rfl, rfl, ?_⟩
  decide

/-- C4 (amended): a successful `reserve(additional)` leaves capacity
`max 1 (cap + additional)` — in particular at least `cap + additional` —
achieved by one single growth event that jumps the allocation directly to
the target size; a failed `reserve` achieves no partial growth at all (the
allocation and log are unchanged) but leaves the capacity field overwritten
with `max 1 (cap + additional) - 1`. -/
theorem C4_amended (z : α) (add : Nat) (v : Vec α) (s : AState) :
    (∀ v' s', reserve z add v s = (Except.ok (), v', s') →
      v.cap + add ≤ v'.cap ∧ v'.cap = max 1 (v.cap + add) ∧ v'.len = v.len ∧
        s'.log = s.log ++ [(v.buf.length, max 1 (v.cap + add))]) ∧
    (∀ v' s', reserve z add v s = (Except.error (), v', s') →
      v'.buf = v.buf ∧ v'.len = v.len ∧ v'.cap = max 1 (v.cap + add) - 1 ∧
        s'.log = s.log) := by
  constructor
  · intro v' s' h
    obtain ⟨h1, h2, h3, h4, -⟩ := reserve_ok_char z add v s v' s' h
    exact ⟨by omega, h1, h2, h4⟩
  · intro v' s' h
    obtain ⟨hv, hs⟩ := reserve_err_char z add v s v' s' h
    subst hv
    exact ⟨rfl, rfl, rfl, hs⟩

/-- Witness for C4 (amended): successful `reserve(3)` from empty. -/
theorem C4_amended_witness :
    (Vec.new (α := Nat)).cap + 3 ≤ (⟨[some 0, none, none], 3, 0⟩ : Vec Nat).cap ∧
    (⟨[some 0, none, none], 3, 0⟩ : Vec Nat).cap =
      max 1 ((Vec.new (α := Nat)).cap + 3) ∧
    (⟨[some 0, none, none], 3, 0⟩ : Vec Nat).len = (Vec.new (α := Nat)).len ∧
    (⟨fun _ => true, 1, [(0, 3)]⟩ : AState).log =
      sAll.log ++ [((Vec.new (α := Nat)).buf.length,
        max 1 ((Vec.new (α := Nat)).cap + 3))] :=
  (C4_amended 0 3 Vec.new sAll).1 ⟨[some 0, none, none], 3, 0⟩
    ⟨fun _ => true, 1, [(0, 3)]⟩ rfl

/-- C5: `append(a, b)` always leaves `b` empty (the swap happens before any
fallible step), and on success the live view of `a` becomes the original
view of `a` followed by the original view of `b`, in order. -/
theorem C5_append (z : α) (a b : Vec α) (s : AState) (ha : WF a) :
    (append z a b s).other = Vec.new ∧
    ((append z a b s).res = Except.ok () →
      view (append z a b s).self = view a ++ view b) := by
  obtain ⟨hab, hal⟩ := ha
  rcases hres : reserve z b.len a s with ⟨r, v1, s1⟩
  cases r with
  | error e =>
    cases e
    have happ : append z a b s = ⟨Except.error (), v1, Vec.new, s1⟩ := by
      simp only [append, hres]
    rw [happ]
    exact ⟨rfl, fun habs => absurd habs (by simp)⟩
  | ok u =>
    cases u
    obtain ⟨h1, h2, h3, -, h5⟩ := reserve_ok_char z b.len a s v1 s1 hres
    obtain ⟨v2, hp, -, -, -, hview2⟩ := pushAll_noGrow z (view b) v1 s1
      (by rw [h3, h1]) (by rw [h2, h1, length_view]; omega)
    have happ : append z a b s =
        ⟨(pushAll z (view b) v1 s1).1, (pushAll z (view b) v1 s1).2.1, Vec.new,
          (pushAll z (view b) v1 s1).2.2⟩ := by
      simp only [append, hres]
    rw [happ, hp]
    refine ⟨rfl, fun _ => ?_⟩
    show view v2 = view a ++ view b
    rw [hview2, h5 hal]

/-- Witness for C5: appending a one-element container to another. -/
theorem C5_witness :
    (append (0 : Nat) ⟨[some 1], 1, 1⟩ ⟨[some 2], 1, 1⟩ sAll).other = Vec.new ∧
    view (append (0 : Nat) ⟨[some 1], 1, 1⟩ ⟨[some 2], 1, 1⟩ sAll).self =
      view (⟨[some 1], 1, 1⟩ : Vec Nat) ++ view (⟨[some 2], 1, 1⟩ : Vec Nat) :=
  ⟨(C5_append 0 ⟨[some 1], 1, 1⟩ ⟨[some 2], 1, 1⟩ sAll ⟨rfl, by decide⟩).1,
   (C5_append 0 ⟨[some 1], 1, 1⟩ ⟨[some 2], 1, 1⟩ sAll ⟨rfl, by decide⟩).2 rfl⟩

/-- C6: a successful `push(v)` followed immediately by `pop()` yields
exactly the pushed value and restores the prior length. -/
theorem C6_push_pop (z val : α) (v : Vec α) (s : AState) (hwf : WF v)
    (v' : Vec α) (s' : AState)
    (h : push z val v s = (Except.ok (), v', s')) :
    (pop v').1 = some (some val) ∧ (pop v').2.len = v.len := by
  obtain ⟨hab, hal⟩ := hwf
  by_cases hfull : v.len = v.cap
  · rcases Bool.eq_false_or_eq_true (s.ok s.tick) with hk | hk
    · rw [push, pushRaw_full_ok z (some val) v s hfull hk] at h
      have hv' : v' = ⟨(grownBuf z v).set v.len (some val), v.cap + 1, v.len + 1⟩ := by
        have := congrArg (fun p => p.2.1) h
        simpa using this.symm
      subst hv'
      rw [pop_succ]
      refine ⟨?_, rfl⟩
      show some (rd ((grownBuf z v).set v.len (some val)) v.len) = some (some val)
      rw [rd_set, if_pos ⟨rfl, by rw [length_grownBuf]; omega⟩]
    · rw [push, pushRaw_full_err z (some val) v s hfull hk] at h
      exact absurd (congrArg (fun p => p.1) h) (by simp)
  · rw [push, pushRaw_noGrow z (some val) v s hfull] at h
    have hv' : v' = ⟨v.buf.set v.len (some val), v.cap, v.len + 1⟩ := by
      have := congrArg (fun p => p.2.1) h
      simpa using this.symm
    subst hv'
    rw [pop_succ]
    refine ⟨?_, rfl⟩
    show some (rd (v.buf.set v.len (some val)) v.len) = some (some val)
    rw [rd_set, if_pos ⟨rfl, by omega⟩]

/-- Witness for C6: pushing 5 onto a full one-element container. -/
theorem C6_witness :
    (pop (⟨[some 9, some 5], 2, 2⟩ : Vec Nat)).1 = some (some 5) ∧
    (pop (⟨[some 9, some 5], 2, 2⟩ : Vec Nat)).2.len =
      (⟨[some 9], 1, 1⟩ : Vec Nat).len :=
  C6_push_pop 0 5 ⟨[some 9], 1, 1⟩ sAll ⟨rfl, by decide⟩
    ⟨[some 9, some 5], 2, 2⟩ ⟨fun _ => true, 1, [(1, 2)]⟩ rfl

/-- C7: a successful `from_slice(data)` produces a container whose live
view reads back exactly `data`, for any length including zero. -/
theorem C7_from_slice (z : α) (data : List α) (s : AState)
    (w : Vec α) (s' : AState)
    (h : from_slice z data s = (Except.ok w, s')) :
    view w = data.map some := by
  rcases hwl : with_len z data.length s with ⟨r, s1⟩
  cases r with
  | error e =>
    cases e
    rw [from_slice, hwl] at h
    exact absurd (congrArg (fun p => p.1) h) (by simp)
  | ok w0 =>
    obtain ⟨-, hl, hbl, -, -⟩ := with_len_ok_char z data.length s w0 s1 hwl
    rw [from_slice, hwl] at h
    have hw : w = ⟨copyRange w0.buf 0 data, w0.cap, w0.len⟩ := by
      have := congrArg (fun p => p.1) h
      simp only [Except.ok.injEq] at this
      exact this.symm
    subst hw
    apply List.ext_getElem
    · show (view _).length = _
      rw [length_view, List.length_map]
      exact hl
    · intro n h1 h2
      rw [length_view] at h1
      have hn : n < data.length := by
        have : (⟨copyRange w0.buf 0 data, w0.cap, w0.len⟩ : Vec α).len = data.length := hl
        omega
      show (tab _ (rd (copyRange w0.buf 0 data)))[n] = _
      rw [getElem_tab, List.getElem_map, rd_copyRange,
        if_pos (by rw [hbl]; omega),
        if_pos ⟨Nat.zero_le n, by omega⟩]
      simp [List.getElem?_eq_getElem hn]

/-- Witness for C7: round trip of a two-element slice. -/
theorem C7_witness :
    view (⟨[some 5, some 7], 2, 2⟩ : Vec Nat) = [5, 7].map some :=
  C7_from_slice 0 [5, 7] sAll ⟨[some 5, some 7], 2, 2⟩
    ⟨fun _ => true, 1, [(0, 2)]⟩ rfl

/-- C8: `clone` never returns an error value — for every container and
allocator behaviour it either aborts (the `.expect("OOM")` panic, modelled
as `none`) or returns a container with an identical live view. -/
theorem C8_clone (z : α) (v : Vec α) (s : AState) :
    (clone z v s).1 = none ∨
      ∃ w, (clone z v s).1 = some w ∧ view w = view v := by
  rcases hp : pushAll z (view v) Vec.new s with ⟨r, w, s1⟩
  cases r with
  | error e =>
    cases e
    left
    simp only [clone]
    rw [hp]
  | ok u =>
    cases u
    right
    obtain ⟨-, -, -, hv, -⟩ :=
      pushAll_compact z (view v) Vec.new s w s1 ⟨rfl, rfl⟩ hp
    refine ⟨w, by simp only [clone]; rw [hp], ?_⟩
    rw [hv]
    exact List.nil_append _

/-- C9: container equality — both container-vs-container and
container-vs-native-slice/sequence (the `PartialEq<&[T]>` and
`PartialEq<std::vec::Vec<T>>` impls coincide in the model) — holds iff the
live views have equal length and all corresponding elements compare equal
in index order; it is reflexive (for a reflexive element comparison, on
initialized containers) and symmetric (for a symmetric element comparison);
comparison against a native slice of different length is always false. -/
theorem C9_equality (beq : α → α → Bool) (v w : Vec α) (sl : List α) :
    (vecEq beq v w = true ↔
      (v.len = w.len ∧ ∀ i, i < v.len →
        obeq beq (rd v.buf i) (rd w.buf i) = true)) ∧
    (vecEqSlice beq v sl = true ↔
      (v.len = sl.length ∧ ∀ i, i < v.len →
        obeq beq (rd v.buf i) sl[i]? = true)) ∧
    ((∀ a, beq a a = true) → Inited v → vecEq beq v v = true) ∧
    ((∀ a b, beq a b = beq b a) → vecEq beq v w = vecEq beq w v) ∧
    (v.len ≠ sl.length → vecEqSlice beq v sl = false) := by
  refine ⟨vecEq_iff beq v w, vecEqSlice_iff beq v sl,
    fun h1 h2 => vecEq_refl beq v h1 h2,
    fun hs => vecEq_symm beq v w hs, fun hne => ?_⟩
  apply sliceBeq_false_of_len
  rw [length_view, List.length_map]
  exact hne

/-- Witness for C9: reflexivity on an initialized container, a true
container-vs-slice comparison via the iff, and a slice comparison with a
length mismatch, over `Bool` elements. -/
theorem C9_witness :
    vecEq (fun a b : Bool => a == b) ⟨[some true, some false], 2, 2⟩
      ⟨[some true, some false], 2, 2⟩ = true ∧
    vecEqSlice (fun a b : Bool => a == b) ⟨[some true, some false], 2, 2⟩
      [true, false] = true ∧
    vecEqSlice (fun a b : Bool => a == b) ⟨[some true, some false], 2, 2⟩
      [true] = false :=
  ⟨(C9_equality (fun a b : Bool => a == b) ⟨[some true, some false], 2, 2⟩
      ⟨[some true, some false], 2, 2⟩ [true]).2.2.1 (by decide)
      (by intro i hi; have hi2 : i < 2 := hi; interval_cases i <;> rfl),
   (C9_equality (fun a b : Bool => a == b) ⟨[some true, some false], 2, 2⟩
      ⟨[some true, some false], 2, 2⟩ [true, false]).2.1.mpr (by decide),
   (C9_equality (fun a b : Bool => a == b) ⟨[some true, some false], 2, 2⟩
      ⟨[some true, some false], 2, 2⟩ [true]).2.2.2.2 (by decide)⟩

/-- C10: a successful `reserve(additional)` leaves the capacity at exactly
`max 1 (cap + additional)`; in particular `with_len(0)` and `reserve(0)` on
a fresh empty container both perform an allocation and produce capacity 1,
not 0. -/
theorem C10_capacity (z : α) (add : Nat) (v : Vec α) (s : AState) :
    (∀ v' s', reserve z add v s = (Except.ok (), v', s') →
      v'.cap = max 1 (v.cap + add)) ∧
    (∀ w s', with_len z 0 s = (Except.ok w, s') →
      w.cap = 1 ∧ s'.log = s.log ++ [(0, 1)]) ∧
    (∀ v' s', reserve z 0 Vec.new s = (Except.ok (), v', s') →
      v'.cap = 1 ∧ s'.log = s.log ++ [(0, 1)]) := by
  refine ⟨?_, ?_, ?_⟩
  · intro v' s' h
    exact (reserve_ok_char z add v s v' s' h).1
  · intro w s' h
    obtain ⟨h1, -, -, h4, -⟩ := with_len_ok_char z 0 s w s' h
    exact ⟨by rw [h1]; simp, by rw [h4]; simp⟩
  · intro v' s' h
    obtain ⟨h1, -, -, h4, -⟩ := reserve_ok_char z 0 Vec.new s v' s' h
    exact ⟨by rw [h1]; simp [Vec.new], by rw [h4]; simp [Vec.new]⟩

/-- Witness for C10: `reserve(3)` from empty, `with_len(0)`, and
`reserve(0)` from empty, all against the always-succeeding allocator. -/
theorem C10_witness :
    (⟨[some 0, none, none], 3, 0⟩ : Vec Nat).cap =
      max 1 ((Vec.new (α := Nat)).cap + 3) ∧
    ((⟨[some 0], 1, 0⟩ : Vec Nat).cap = 1 ∧
      (⟨fun _ => true, 1, [(0, 1)]⟩ : AState).log = sAll.log ++ [(0, 1)]) ∧
    ((⟨[some 0], 1, 0⟩ : Vec Nat).cap = 1 ∧
      (⟨fun _ => true, 1, [(0, 1)]⟩ : AState).log = sAll.log ++ [(0, 1)]) :=
  ⟨(C10_capacity (0 : Nat) 3 Vec.new sAll).1 ⟨[some 0, none, none], 3, 0⟩
      ⟨fun _ => true, 1, [(0, 3)]⟩ rfl,
   (C10_capacity (0 : Nat) 3 Vec.new sAll).2.1 ⟨[some 0], 1, 0⟩
      ⟨fun _ => true, 1, [(0, 1)]⟩ rfl,
   (C10_capacity (0 : Nat) 3 Vec.new sAll).2.2 ⟨[some 0], 1, 0⟩
      ⟨fun _ => true, 1, [(0, 1)]⟩ rfl⟩

end MonkeyVec
